import Mathlib

/-!
# Verification of the transmuseTATE REMI encoder and tokeniser

Shallow embedding of `src/xml_to_remi.py` and `src/tokenise_remi.py`.
Musical offsets and durations (Python floats holding quarter-length
values) are modelled as rationals; Python `int()` truncation toward
zero is modelled explicitly; Python dicts appear as association lists
with CPython insertion-order semantics.
-/

set_option autoImplicit false

namespace TransmuseTATE

/-- Python `int(q)`: truncation toward zero. -/
def pyInt (q : ℚ) : ℤ := if 0 ≤ q then ⌊q⌋ else ⌈q⌉

/-- `DURATION_LABELS` from `xml_to_remi.py` lines 16–21, in Python dict
insertion order (keys as exact rationals). -/
def DURATION_LABELS : List (ℚ × String) :=
  [(4, "Duration_1"), (3, "Duration_d2"), (2, "Duration_1/2"),
   (3/2, "Duration_d1/4"), (1, "Duration_1/4"), (2/3, "Duration_1/4t"),
   (3/4, "Duration_d1/8"), (1/2, "Duration_1/8"), (1/3, "Duration_1/8t"),
   (3/8, "Duration_d1/16"), (1/4, "Duration_1/16"), (1/6, "Duration_1/16t"),
   (1/8, "Duration_1/32"), (1/12, "Duration_1/32t")]

/-- `quantize_position(offset, quarter_length=1.0, steps_per_quarter=4)`:
`step = quarter_length / steps_per_quarter; return int(offset / step)`. -/
def quantize_position (offset : ℚ) (quarter_length : ℚ) (steps_per_quarter : ℚ) : ℤ :=
  let step := quarter_length / steps_per_quarter
  pyInt (offset / step)

/-- Python `min(keys, key=lambda x: abs(x - duration))` over an
insertion-ordered key list: the first entry attaining the minimal
absolute difference wins (later entries replace the current best only
on a strictly smaller difference). -/
def minAbsEntry (d : ℚ) (best : ℚ × String) : List (ℚ × String) → ℚ × String
  | [] => best
  | p :: l => minAbsEntry d (if |p.1 - d| < |best.1 - d| then p else best) l

/-- `quantize_duration(duration)`: label of the table key closest to
`duration` in absolute difference, first-declared key winning ties. -/
def quantize_duration (d : ℚ) : String :=
  match DURATION_LABELS with
  | [] => ""
  | p :: l => (minAbsEntry d p l).2

/-- The kind of an element of `measure.notesAndRests`: a `note.Note`,
a `note.Rest`, or any other general note (e.g. a `chord.Chord`), which
matches neither `isinstance` test in the encoder. -/
inductive EKind : Type
  | noteK (pitch : ℕ) (arts : List String)
  | restK
  | otherK
deriving DecidableEq, Repr

/-- One element yielded by `measure.notesAndRests`, with its `offset`
and `duration.quarterLength`. -/
structure MEvent : Type where
  offset : ℚ
  duration : ℚ
  kind : EKind
deriving DecidableEq, Repr

/-- A `stream.Measure`: its `notesAndRests`, in the order music21
yields them. -/
structure MMeasure : Type where
  events : List MEvent
deriving DecidableEq, Repr

/-- A part: its measures in order. -/
structure MPart : Type where
  measures : List MMeasure
deriving DecidableEq, Repr

/-- A parsed score: its parts in order. -/
structure Score : Type where
  parts : List MPart
deriving DecidableEq, Repr

/-- The token list the encoder emits for one element of
`notesAndRests` (body of the inner loop of
`convert_xml_to_remi_musicbert`, lines 127–138).  Note the faithful
call `quantize_position(el.offset, steps_per_quarter)`: the encoder's
`steps_per_quarter` argument lands in the `quarter_length` positional
slot and `steps_per_quarter` keeps its default `4`. -/
def encodeEvent (steps_per_quarter : ℚ) (e : MEvent) : List String :=
  ("Position_" ++ toString (quantize_position e.offset steps_per_quarter 4)) ::
    (match e.kind with
     | .noteK p arts =>
         ("Pitch_" ++ toString p) :: quantize_duration e.duration ::
           arts.map (fun a => "Articulation_" ++ a)
     | .restK => ["Rest", quantize_duration e.duration]
     | .otherK => [])

/-- Tokens for one measure: an unconditional `Bar`, then the events. -/
def encodeMeasure (steps_per_quarter : ℚ) (m : MMeasure) : List String :=
  "Bar" :: (m.events.map (encodeEvent steps_per_quarter)).flatten

/-- The token sequence of `convert_xml_to_remi_musicbert` (the first
component of its return value). -/
def convert_xml_to_remi_tokens (steps_per_quarter : ℚ) (s : Score) : List String :=
  (s.parts.map (fun p => (p.measures.map (encodeMeasure steps_per_quarter)).flatten)).flatten

end TransmuseTATE

namespace TransmuseTATE

/-! ## Properties of the Quantizer -/

/-- `minAbsEntry` returns its running best or a member of the list. -/
theorem minAbsEntry_mem (d : ℚ) (best : ℚ × String) (l : List (ℚ × String)) :
    minAbsEntry d best l = best ∨ minAbsEntry d best l ∈ l := by
  induction l generalizing best with
  | nil => left; rfl
  | cons p l ih =>
    rcases ih (if |p.1 - d| < |best.1 - d| then p else best) with h | h
    · rw [minAbsEntry, h]
      split
      · right; exact List.mem_cons_self _ _
      · left; rfl
    · right
      rw [minAbsEntry]
      exact List.mem_cons_of_mem _ h

/-- When no list entry is strictly closer to `d` than the running best,
the running best survives. -/
theorem minAbsEntry_const (d : ℚ) (best : ℚ × String) (l : List (ℚ × String))
    (h : ∀ p ∈ l, ¬ |p.1 - d| < |best.1 - d|) : minAbsEntry d best l = best := by
  induction l with
  | nil => rfl
  | cons p l ih =>
    rw [minAbsEntry, if_neg (h p (List.mem_cons_self _ _))]
    exact ih fun q hq => h q (List.mem_cons_of_mem _ hq)

/-- A strict unique minimizer of the absolute difference is what
`minAbsEntry` returns. -/
theorem minAbsEntry_of_strict_min (d : ℚ) (p : ℚ × String) :
    ∀ (l : List (ℚ × String)) (best : ℚ × String),
    (p = best ∨ p ∈ l) →
    (∀ q, (q = best ∨ q ∈ l) → q ≠ p → |p.1 - d| < |q.1 - d|) →
    minAbsEntry d best l = p := by
  intro l
  induction l with
  | nil =>
    intro best hp _
    rcases hp with h | h
    · simpa [minAbsEntry] using h.symm
    · exact absurd h (List.not_mem_nil _)
  | cons q l ih =>
    intro best hp hmin
    rw [minAbsEntry]
    by_cases hqp : q = p
    · subst hqp
      apply ih
      · left
        by_cases hqb : q = best
        · simp [hqb]
        · have := hmin best (Or.inl rfl) (fun h => hqb h.symm)
          simp [this]
      · intro r hr hrq
        apply hmin r _ hrq
        rcases hr with h | h
        · by_cases hc : |q.1 - d| < |best.1 - d|
          · rw [if_pos hc] at h
            exact Or.inr (h ▸ List.mem_cons_self _ _)
          · rw [if_neg hc] at h
            exact Or.inl h
        · exact Or.inr (List.mem_cons_of_mem _ h)
    · have hpb : p = best ∨ p ∈ l := by
        rcases hp with h | h
        · exact Or.inl h
        · rcases List.mem_cons.mp h with h | h
          · exact absurd h.symm hqp
          · exact Or.inr h
      have hq : |p.1 - d| < |q.1 - d| :=
        hmin q (Or.inr (List.mem_cons_self _ _)) hqp
      rcases hpb with h | h
      · subst h
        rw [if_neg (not_lt.mpr (le_of_lt hq))]
        apply ih _ (Or.inl rfl)
        intro r hr hrp
        apply hmin r _ hrp
        rcases hr with h | h
        · exact Or.inl h
        · exact Or.inr (List.mem_cons_of_mem _ h)
      · apply ih _ (Or.inr h)
        intro r hr hrp
        apply hmin r _ hrp
        rcases hr with hh | hh
        · by_cases hc : |q.1 - d| < |best.1 - d|
          · rw [if_pos hc] at hh
            exact Or.inr (hh ▸ List.mem_cons_self _ _)
          · rw [if_neg hc] at hh
            exact Or.inl hh
        · exact Or.inr (List.mem_cons_of_mem _ hh)

/-- The 14 keys of `DURATION_LABELS` are pairwise distinct. -/
theorem duration_keys_distinct :
    ∀ p ∈ DURATION_LABELS, ∀ q ∈ DURATION_LABELS, q ≠ p → q.1 ≠ p.1 := by
  simp only [DURATION_LABELS, List.mem_cons, List.not_mem_nil, or_false]
  rintro p (rfl | rfl | rfl | rfl | rfl | rfl | rfl | rfl | rfl | rfl | rfl | rfl | rfl | rfl)
      q hq hqp <;>
    rcases hq with rfl | rfl | rfl | rfl | rfl | rfl | rfl | rfl | rfl | rfl | rfl | rfl | rfl | rfl <;>
    simp_all <;> norm_num

/-- Unfolded form of `quantize_duration`. -/
theorem quantize_duration_eq (d : ℚ) :
    quantize_duration d = (minAbsEntry d (4, "Duration_1") DURATION_LABELS.tail).2 := rfl

/-- On an exact table key, `quantize_duration` returns that key's label. -/
theorem quantize_duration_exact : ∀ p ∈ DURATION_LABELS, quantize_duration p.1 = p.2 := by
  intro p hp
  have hhead : DURATION_LABELS = (4, "Duration_1") :: DURATION_LABELS.tail := rfl
  have hp' : p = ((4 : ℚ), "Duration_1") ∨ p ∈ DURATION_LABELS.tail := by
    rw [hhead] at hp
    exact List.mem_cons.mp hp
  rw [quantize_duration_eq,
    minAbsEntry_of_strict_min p.1 p DURATION_LABELS.tail (4, "Duration_1") hp']
  intro q hq hqp
  have hqmem : q ∈ DURATION_LABELS := by
    rw [hhead]
    exact List.mem_cons.mpr hq
  have hne : q.1 ≠ p.1 := duration_keys_distinct p hp q hqmem hqp
  simpa using abs_pos.mpr (sub_ne_zero.mpr hne)

/-- `quantize_duration` always answers with a label of the table. -/
theorem quantize_duration_mem_labels (d : ℚ) :
    quantize_duration d ∈ DURATION_LABELS.map Prod.snd := by
  rw [quantize_duration_eq]
  have hhead : DURATION_LABELS = (4, "Duration_1") :: DURATION_LABELS.tail := rfl
  rcases minAbsEntry_mem d (4, "Duration_1") DURATION_LABELS.tail with h | h
  · rw [h, hhead]
    exact List.mem_map_of_mem Prod.snd (List.mem_cons_self _ _)
  · rw [hhead]
    exact List.mem_map_of_mem Prod.snd (List.mem_cons_of_mem _ h)

end TransmuseTATE

namespace TransmuseTATE

/-- The duration-label grammar of spec §6 (the enumerated labels,
prefixed `Duration_` as the encoder emits them). -/
def grammarDurationLabels : List String :=
  ["Duration_1", "Duration_d2", "Duration_1/2", "Duration_d1/4",
   "Duration_1/4", "Duration_1/4t", "Duration_d1/8", "Duration_1/8",
   "Duration_1/8t", "Duration_d1/16", "Duration_1/16", "Duration_1/16t",
   "Duration_1/32", "Duration_1/32t"]

/-- C4 counterexample: the duration-label table does not have 13
entries — it has 14. -/
theorem C4_cex_table_not_13 : DURATION_LABELS.length ≠ 13 := by decide

/-- C4 (amended): the duration-label table is a fixed constant with
exactly 14 entries, its labels are exactly the labels enumerated in the
token grammar of §6 (also 14 of them), and every duration token
`quantize_duration` can emit is one of those labels. -/
theorem claim_C4_duration_table :
    DURATION_LABELS.length = 14 ∧
    DURATION_LABELS.map Prod.snd = grammarDurationLabels ∧
    ∀ d : ℚ, quantize_duration d ∈ grammarDurationLabels := by
  refine ⟨rfl, rfl, fun d => ?_⟩
  have h := quantize_duration_mem_labels d
  rwa [show DURATION_LABELS.map Prod.snd = grammarDurationLabels from rfl] at h

/-- C5: `quantize_duration` is total over positive durations and always
returns a label of the fixed table; on each exact canonical key it
returns that key's own label (in particular `1 ↦ Duration_1/4` and
`1/2 ↦ Duration_1/8`); and on an exact nearest-key tie it resolves
deterministically to the first-declared key (`7/2` ties between keys
`4` and `3` and yields `Duration_1`), never raising. -/
theorem claim_C5_quantize_duration_total :
    (∀ d : ℚ, 0 < d → quantize_duration d ∈ DURATION_LABELS.map Prod.snd) ∧
    (∀ p ∈ DURATION_LABELS, quantize_duration p.1 = p.2) ∧
    quantize_duration 1 = "Duration_1/4" ∧
    quantize_duration (1/2) = "Duration_1/8" ∧
    quantize_duration (7/2) = "Duration_1" := by
  refine ⟨fun d _ => quantize_duration_mem_labels d, quantize_duration_exact, ?_, ?_, ?_⟩
  · have := quantize_duration_exact ((1 : ℚ), "Duration_1/4") (by norm_num [DURATION_LABELS])
    simpa using this
  · have := quantize_duration_exact (((1 : ℚ)/2), "Duration_1/8") (by norm_num [DURATION_LABELS])
    simpa using this
  · rw [quantize_duration_eq, minAbsEntry_const]
    intro p hp
    fin_cases hp <;> norm_num [abs_of_nonneg]

/-- C5 witness: concrete instances discharging the hypotheses. -/
theorem claim_C5_witness :
    quantize_duration 1 ∈ DURATION_LABELS.map Prod.snd ∧
    quantize_duration 4 = "Duration_1" :=
  ⟨claim_C5_quantize_duration_total.1 1 (by norm_num),
   claim_C5_quantize_duration_total.2.1 ((4 : ℚ), "Duration_1")
     (by norm_num [DURATION_LABELS])⟩

/-- C6 counterexample: at the negative offset `-1/10` (defaults
`quarter_length = 1`, `steps_per_quarter = 4`) `quantize_position` does
not fail with any `InvalidOffset` condition: it returns the silently
truncated index `0`. -/
theorem C6_cex_negative_offset_truncates : quantize_position (-1/10) 1 4 = 0 := by
  norm_num [quantize_position, pyInt]

/-- C6 (amended): for every negative offset, `quantize_position` (with
its declared defaults) does not fail; it returns `int(offset / step)`,
the truncation of `4 * offset` toward zero, i.e. its ceiling. -/
theorem claim_C6_negative_offset (offset : ℚ) (h : offset < 0) :
    quantize_position offset 1 4 = ⌈4 * offset⌉ := by
  have h4 : offset / ((1 : ℚ) / 4) = 4 * offset := by ring
  have hneg : ¬ (0 ≤ 4 * offset) := by
    push_neg
    nlinarith
  rw [quantize_position, pyInt]
  simp only [h4]
  rw [if_neg hneg]

/-- C6 witness: the amended claim at `offset = -1/10`. -/
theorem claim_C6_witness :
    quantize_position (-1/10) 1 4 = ⌈(4 : ℚ) * (-1/10)⌉ :=
  claim_C6_negative_offset (-1/10) (by norm_num)

end TransmuseTATE

namespace TransmuseTATE

/-! ## Event Encoder: position bug, other-event handling, token counts -/

/-- C1 (code bug): `quantize_position` itself, at its declared defaults
`quarter_length = 1, steps_per_quarter = 4`, maps `offset = 1/2` to
index `2 = floor(4 * offset)` as the claim states — but the encoder
calls `quantize_position(el.offset, steps_per_quarter)`, passing
`steps_per_quarter = 4` into the `quarter_length` positional slot, so
the emitted token for a note at offset `1/2` is `Position_0`, not
`Position_2`. -/
theorem claim_C1_position_index_bug :
    quantize_position (1/2) 1 4 = 2 ∧
    convert_xml_to_remi_tokens 4 ⟨[⟨[⟨[⟨1/2, 1, EKind.noteK 60 []⟩]⟩]⟩]⟩ =
      ["Bar", "Position_0", "Pitch_60", "Duration_1/4"] := by
  constructor
  · norm_num [quantize_position, pyInt]
  · have hq : quantize_position (1/2) 4 4 = 0 := by norm_num [quantize_position, pyInt]
    have hd : quantize_duration 1 = "Duration_1/4" := by
      norm_num [quantize_duration, minAbsEntry, DURATION_LABELS, abs_of_nonneg]
    simp only [convert_xml_to_remi_tokens, encodeMeasure, encodeEvent, List.map_cons,
      List.map_nil, List.flatten, hq, hd]
    rfl

/-- A score whose single measure holds one event that is neither a
`note.Note` nor a `note.Rest` (e.g. a chord). -/
def scoreOtherOnly : Score := ⟨[⟨[⟨[⟨0, 1, EKind.otherK⟩]⟩]⟩]⟩

/-- C2 counterexample: an event that is neither Note nor Rest still
contributes a token — its `Position` token is emitted before the
`isinstance` tests — so the output is not the bare `["Bar"]` the claim
requires. -/
theorem C2_cex_other_event_emits_position :
    convert_xml_to_remi_tokens 4 scoreOtherOnly = ["Bar", "Position_0"] ∧
    convert_xml_to_remi_tokens 4 scoreOtherOnly ≠ ["Bar"] := by
  have hq : quantize_position 0 4 4 = 0 := by norm_num [quantize_position, pyInt]
  constructor
  · simp only [scoreOtherOnly, convert_xml_to_remi_tokens, encodeMeasure, encodeEvent,
      List.map_cons, List.map_nil, List.flatten, hq]
    rfl
  · intro h
    rw [show convert_xml_to_remi_tokens 4 scoreOtherOnly = ["Bar", "Position_0"] by
      simp only [scoreOtherOnly, convert_xml_to_remi_tokens, encodeMeasure, encodeEvent,
        List.map_cons, List.map_nil, List.flatten, hq]
      rfl] at h
    simp at h

/-- C2 (amended): for every event that is neither a Note nor a Rest,
the encoder emits exactly one token — the event's `Position` token —
and no type-specific tokens. -/
theorem claim_C2_other_event_position_only (spq : ℚ) (e : MEvent)
    (h : e.kind = EKind.otherK) :
    encodeEvent spq e =
      ["Position_" ++ toString (quantize_position e.offset spq 4)] := by
  rcases e with ⟨o, d, k⟩
  subst h
  rfl

/-- C2 witness: the amended claim at a concrete other-kind event. -/
theorem claim_C2_witness :
    encodeEvent 4 ⟨0, 1, EKind.otherK⟩ =
      ["Position_" ++ toString (quantize_position 0 4 4)] :=
  claim_C2_other_event_position_only 4 ⟨0, 1, EKind.otherK⟩ rfl

/-- Is the event a `note.Note`? -/
def isNoteE : MEvent → Bool
  | ⟨_, _, .noteK _ _⟩ => true
  | _ => false

/-- Is the event a `note.Rest`? -/
def isRestE : MEvent → Bool
  | ⟨_, _, .restK⟩ => true
  | _ => false

/-- Number of articulations attached to an event (0 for non-notes). -/
def eventArtCount : MEvent → ℕ
  | ⟨_, _, .noteK _ arts⟩ => arts.length
  | _ => 0

/-- Number of tokens the encoder emits for one event. -/
def eventTokenCount : MEvent → ℕ
  | ⟨_, _, .noteK _ arts⟩ => 3 + arts.length
  | ⟨_, _, .restK⟩ => 3
  | ⟨_, _, .otherK⟩ => 1

/-- All measures of a score, in traversal order. -/
def scoreMeasures (s : Score) : List MMeasure := (s.parts.map MPart.measures).flatten

/-- All events of a score, in traversal order. -/
def scoreEvents (s : Score) : List MEvent :=
  ((scoreMeasures s).map MMeasure.events).flatten

def countMeasures (s : Score) : ℕ := (scoreMeasures s).length

def countEvents (s : Score) : ℕ := (scoreEvents s).length

def countNotes (s : Score) : ℕ := ((scoreEvents s).filter isNoteE).length

def countRests (s : Score) : ℕ := ((scoreEvents s).filter isRestE).length

def countArticulations (s : Score) : ℕ := ((scoreEvents s).map eventArtCount).sum

/-- The token-sequence length formula of the claim, as the spec words
it: 1 per measure, 2 per event, 1 per note (its duration token), 1 per
articulation. -/
def specTokenCount (s : Score) : ℕ :=
  countMeasures s + 2 * countEvents s + countNotes s + countArticulations s

theorem encodeEvent_length (spq : ℚ) (e : MEvent) :
    (encodeEvent spq e).length = eventTokenCount e := by
  rcases e with ⟨o, d, k⟩
  cases k <;> first
  | rfl
  | (simp [encodeEvent, eventTokenCount]; omega)

theorem encodeMeasure_length (spq : ℚ) (m : MMeasure) :
    (encodeMeasure spq m).length = 1 + (m.events.map eventTokenCount).sum := by
  rw [encodeMeasure, List.length_cons, List.length_flatten, List.map_map]
  rw [show List.length ∘ encodeEvent spq = eventTokenCount from funext (encodeEvent_length spq)]
  omega

theorem convert_length (spq : ℚ) (s : Score) :
    (convert_xml_to_remi_tokens spq s).length =
      countMeasures s + ((scoreEvents s).map eventTokenCount).sum := by
  rcases s with ⟨ps⟩
  induction ps with
  | nil => rfl
  | cons p ps ih =>
    have hm : ∀ (ms : List MMeasure),
        ((ms.map (encodeMeasure spq)).flatten).length =
          ms.length + ((ms.map MMeasure.events).flatten.map eventTokenCount).sum := by
      intro ms
      induction ms with
      | nil => rfl
      | cons m ms ihm =>
        simp only [List.map_cons, List.flatten_cons, List.length_append, ihm,
          encodeMeasure_length, List.map_append, List.sum_append, List.length_cons]
        omega
    simp only [convert_xml_to_remi_tokens, countMeasures, scoreMeasures, scoreEvents,
      List.map_cons, List.flatten_cons, List.flatten_append, List.length_append,
      List.map_append, List.sum_append] at ih ⊢
    rw [hm p.measures, ih]
    omega

theorem sum_eventTokenCount (es : List MEvent)
    (h : ∀ e ∈ es, isNoteE e = true ∨ isRestE e = true) :
    (es.map eventTokenCount).sum =
      2 * es.length + ((es.filter isNoteE).length + (es.filter isRestE).length) +
        (es.map eventArtCount).sum := by
  induction es with
  | nil => simp
  | cons e es ih =>
    have he := h e (List.mem_cons_self _ _)
    have h' := ih fun x hx => h x (List.mem_cons_of_mem _ hx)
    rcases e with ⟨o, d, k⟩
    cases k with
    | noteK p arts =>
      simp only [List.map_cons, List.sum_cons, List.filter_cons, List.length_cons,
        eventTokenCount, eventArtCount, isNoteE, isRestE, h']
      simp
      omega
    | restK =>
      simp only [List.map_cons, List.sum_cons, List.filter_cons, List.length_cons,
        eventTokenCount, eventArtCount, isNoteE, isRestE, h']
      simp
      omega
    | otherK => simp [isNoteE, isRestE] at he

/-- A score with one part and one measure holding a single rest. -/
def scoreRestOnly : Score := ⟨[⟨[⟨[⟨0, 1, EKind.restK⟩]⟩]⟩]⟩

/-- C3 counterexample: for a score holding a single rest the encoder
emits 4 tokens (`Bar`, `Position_0`, `Rest`, `Duration_1/4`) while the
claim's formula — which counts a duration token only per note — gives
3. -/
theorem C3_cex_rest_duration_uncounted :
    (convert_xml_to_remi_tokens 4 scoreRestOnly).length = 4 ∧
    specTokenCount scoreRestOnly = 3 ∧
    (convert_xml_to_remi_tokens 4 scoreRestOnly).length ≠ specTokenCount scoreRestOnly := by
  refine ⟨?_, rfl, ?_⟩
  · have hq : quantize_position 0 4 4 = 0 := by norm_num [quantize_position, pyInt]
    simp only [scoreRestOnly, convert_xml_to_remi_tokens, encodeMeasure, encodeEvent,
      List.map_cons, List.map_nil, List.flatten, hq]
    rfl
  · intro hcontra
    have h1 : (convert_xml_to_remi_tokens 4 scoreRestOnly).length = 4 := by
      have hq : quantize_position 0 4 4 = 0 := by norm_num [quantize_position, pyInt]
      simp only [scoreRestOnly, convert_xml_to_remi_tokens, encodeMeasure, encodeEvent,
        List.map_cons, List.map_nil, List.flatten, hq]
      rfl
    have h2 : specTokenCount scoreRestOnly = 3 := rfl
    rw [h1, h2] at hcontra
    omega

/-- C3 (amended): for every score all of whose events are Notes or
Rests (the spec's data model), the emitted token-sequence length is
1 per measure, plus 2 per event, plus 1 per note *or rest* (its
duration token), plus 1 per articulation. -/
theorem claim_C3_token_count (spq : ℚ) (s : Score)
    (h : ∀ e ∈ scoreEvents s, isNoteE e = true ∨ isRestE e = true) :
    (convert_xml_to_remi_tokens spq s).length =
      countMeasures s + 2 * countEvents s + (countNotes s + countRests s) +
        countArticulations s := by
  rw [convert_length, sum_eventTokenCount (scoreEvents s) h]
  rw [countEvents, countNotes, countRests, countArticulations]
  omega

/-- A two-measure score: a C4 quarter note with one staccato, then a
quarter rest. -/
def scoreNoteAndRest : Score :=
  ⟨[⟨[⟨[⟨0, 1, EKind.noteK 60 ["Staccato"]⟩]⟩, ⟨[⟨0, 1, EKind.restK⟩]⟩]⟩]⟩

/-- C3 witness: the amended count at a concrete two-measure score
(2 measures + 2·2 events + 2 durations + 1 articulation = 9). -/
theorem claim_C3_witness :
    (convert_xml_to_remi_tokens 4 scoreNoteAndRest).length =
      countMeasures scoreNoteAndRest + 2 * countEvents scoreNoteAndRest +
        (countNotes scoreNoteAndRest + countRests scoreNoteAndRest) +
        countArticulations scoreNoteAndRest :=
  claim_C3_token_count 4 scoreNoteAndRest (by
    simp [scoreEvents, scoreMeasures, scoreNoteAndRest, isNoteE, isRestE])

end TransmuseTATE

namespace TransmuseTATE

/-! ## Metadata Merger -/

/-- A JSON scalar/na­ive value as loaded from a metadata file; only
string values are ever written by the encoder itself. -/
inductive JVal : Type
  | str (s : String)
  | other (tag : ℕ)
deriving DecidableEq, Repr

/-- Python `d[k]` / `k in d` on a dict kept as insertion-ordered
entries: the value at the first (unique) matching key. -/
def pyGet {α : Type} (d : List (String × α)) (k : String) : Option α :=
  match d with
  | [] => none
  | p :: l => if p.1 = k then some p.2 else pyGet l k

/-- Python `d[k] = v`: replace the value in place when the key exists,
else append the new entry at the end (CPython insertion-order dict). -/
def pyDictSet {α : Type} (d : List (String × α)) (k : String) (v : α) :
    List (String × α) :=
  match d with
  | [] => [(k, v)]
  | p :: l => if p.1 = k then (k, v) :: l else p :: pyDictSet l k v

/-- `PROJECT_ROOT` from `xml_to_remi.py` line 24, as a character list. -/
def PROJECT_ROOT : List Char :=
  "/mnt/c/Users/james/projects/transmusetate/project_root".data

/-- Python `str.lstrip("./")`: remove every leading character drawn
from the set `{'.', '/'}` (not just one `./` prefix). -/
def pyLstripDotSlash (s : List Char) : List Char :=
  s.dropWhile (fun c => c == '.' || c == '/')

/-- `pathlib`'s `root / rel` for the already-stripped relative part
(never absolute, empty parts ignored). -/
def pathJoin (root rel : List Char) : List Char :=
  if rel = [] then root else root ++ '/' :: rel

/-- Resolution of a metadata file path from the index entry:
`json_rel_path = PDMX_DICT[mxl].lstrip("./"); json_path = PROJECT_ROOT / json_rel_path`
(`xml_to_remi.py` lines 89–90). -/
def resolveMetadataPath (stored : List Char) : List Char :=
  pathJoin PROJECT_ROOT (pyLstripDotSlash stored)

/-- `load_external_metadata(mxl_path_relative)`.  The CSV-loaded
`PDMX_DICT` and the filesystem/JSON parser are external inputs, passed
as parameters: `readJson p = none` models any exception from
`open`/`json.load` (caught, empty dict returned). -/
def load_external_metadata (pdmx : List (String × String))
    (readJson : List Char → Option (List (String × JVal))) (rel : String) :
    List (String × JVal) :=
  match pyGet pdmx rel with
  | none => []
  | some stored =>
    match readJson (resolveMetadataPath stored.data) with
    | none => []
    | some r => r

/-- The merged metadata record of `convert_xml_to_remi_musicbert`
(lines 120–121): the loaded record with `metadata["filename"]` set to
the source file's base name. -/
def mergedMetadata (pdmx : List (String × String))
    (readJson : List Char → Option (List (String × JVal)))
    (rel : String) (basename : String) : List (String × JVal) :=
  pyDictSet (load_external_metadata pdmx readJson rel) "filename" (JVal.str basename)

/-- After `d[k] = v`, looking up `k` yields `v` (last write wins). -/
theorem pyGet_pyDictSet {α : Type} (d : List (String × α)) (k : String) (v : α) :
    pyGet (pyDictSet d k v) k = some v := by
  induction d with
  | nil => simp [pyGet, pyDictSet]
  | cons p l ih =>
    rw [pyDictSet]
    by_cases h : p.1 = k
    · rw [if_pos h, pyGet, if_pos rfl]
    · rw [if_neg h, pyGet, if_neg h, ih]

/-- C8: the merged metadata record always carries
`filename = <base name>`, overwriting any loaded value for that key;
and when the index has no entry for the score's relative path the
record is exactly `{"filename": <base name>}`. -/
theorem claim_C8_filename_merge (pdmx : List (String × String))
    (readJson : List Char → Option (List (String × JVal)))
    (rel : String) (basename : String) :
    pyGet (mergedMetadata pdmx readJson rel basename) "filename" =
      some (JVal.str basename) ∧
    (pyGet pdmx rel = none →
      mergedMetadata pdmx readJson rel basename = [("filename", JVal.str basename)]) := by
  constructor
  · exact pyGet_pyDictSet _ _ _
  · intro h
    rw [mergedMetadata, load_external_metadata, h]
    rfl

/-- C8 witness: with an empty index and an unreadable filesystem the
merged record of `a.mxl` is exactly its filename entry. -/
theorem claim_C8_witness :
    mergedMetadata [] (fun _ => none) "./mxl/a.mxl" "a.mxl" =
      [("filename", JVal.str "a.mxl")] :=
  (claim_C8_filename_merge [] (fun _ => none) "./mxl/a.mxl" "a.mxl").2 rfl

/-- The head of `dropWhile p l`, when any, fails `p`. -/
theorem head_dropWhile_false {α : Type} (p : α → Bool) (l : List α) :
    ∀ c, ((l.dropWhile p).head? = some c) → p c = false := by
  induction l with
  | nil => intro c h; simp [List.dropWhile] at h
  | cons a l ih =>
    intro c h
    rw [List.dropWhile] at h
    cases hpa : p a with
    | true =>
      simp only [hpa] at h
      exact ih c h
    | false =>
      simp only [hpa, List.head?_cons, Option.some.injEq] at h
      subst h
      exact hpa

/-- C10: resolving a metadata path strips every leading `.` and `/`
character of the stored relative path (the stripped prefix is a run of
such characters, and what remains starts with neither), and in
particular the index value `../meta.json` resolves to
`<projectRoot>/meta.json`. -/
theorem claim_C10_lstrip_resolution :
    (∀ stored : List Char,
      stored = stored.takeWhile (fun c => c == '.' || c == '/') ++ pyLstripDotSlash stored ∧
      (∀ c ∈ stored.takeWhile (fun c => c == '.' || c == '/'), c = '.' ∨ c = '/') ∧
      (∀ c, (pyLstripDotSlash stored).head? = some c → ¬(c = '.' ∨ c = '/'))) ∧
    resolveMetadataPath ("../meta.json".data) =
      ("/mnt/c/Users/james/projects/transmusetate/project_root/meta.json").data := by
  constructor
  · intro stored
    refine ⟨(List.takeWhile_append_dropWhile _ _).symm, ?_, ?_⟩
    · intro c hc
      have := List.mem_takeWhile_imp hc
      simpa using this
    · intro c hc
      have := head_dropWhile_false (fun c => c == '.' || c == '/') stored c hc
      simpa using this
  · decide

end TransmuseTATE

namespace TransmuseTATE

/-! ## Batch Driver -/

/-- Behaviour of the external world for one input file: whether each
fallible step of the `try` block of `batch_process` raises (`false`
models an exception from that step; a failing step writes nothing). -/
structure FileRun : Type where
  encodeOk : Bool
  saveTokensOk : Bool
  saveMetaOk : Bool
  appendRowOk : Bool
deriving DecidableEq, Repr

/-- A per-file output artifact of the batch loop. -/
inductive Artifact : Type
  | tokenFile
  | metaFile
  | csvRow (header : Bool)
deriving DecidableEq, Repr

/-- The artifact with its run-dependent header flag forgotten. -/
inductive AKind : Type
  | tokenA
  | metaA
  | rowA
deriving DecidableEq, Repr

def kindOf : Artifact → AKind
  | .tokenFile => .tokenA
  | .metaFile => .metaA
  | .csvRow _ => .rowA

/-- One iteration of the batch loop (lines 213–223): the artifacts
written for this file and the updated `first_row` flag.  The first
failing step raises; the `except` arm catches, reports and keeps the
already-written artifacts. -/
def processFile (firstRow : Bool) (r : FileRun) : List Artifact × Bool :=
  if !r.encodeOk then ([], firstRow)
  else if !r.saveTokensOk then ([], firstRow)
  else if !r.saveMetaOk then ([Artifact.tokenFile], firstRow)
  else if !r.appendRowOk then ([Artifact.tokenFile, Artifact.metaFile], firstRow)
  else ([Artifact.tokenFile, Artifact.metaFile, Artifact.csvRow firstRow], false)

def batchStep (acc : List (List Artifact) × Bool) (r : FileRun) :
    List (List Artifact) × Bool :=
  ((acc.1 ++ [(processFile acc.2 r).1]), (processFile acc.2 r).2)

/-- `batch_process`: fold over the discovered files with
`first_row = True` initially; result is each file's artifact list, in
traversal order. -/
def batch_process (runs : List FileRun) : List (List Artifact) :=
  (runs.foldl batchStep ([], true)).1

/-- The artifact kinds a single file's run produces, independent of
the batch state. -/
def fileKinds (r : FileRun) : List AKind :=
  if !r.encodeOk then []
  else if !r.saveTokensOk then []
  else if !r.saveMetaOk then [AKind.tokenA]
  else if !r.appendRowOk then [AKind.tokenA, AKind.metaA]
  else [AKind.tokenA, AKind.metaA, AKind.rowA]

theorem processFile_kinds (fr : Bool) (r : FileRun) :
    ((processFile fr r).1).map kindOf = fileKinds r := by
  rcases r with ⟨e, t, m, a⟩
  cases e <;> cases t <;> cases m <;> cases a <;> rfl

theorem batch_foldl_kinds (runs : List FileRun) :
    ∀ (acc : List (List Artifact)) (fr : Bool),
    ((runs.foldl batchStep (acc, fr)).1).map (List.map kindOf) =
      acc.map (List.map kindOf) ++ runs.map fileKinds := by
  induction runs with
  | nil => intro acc fr; simp
  | cons r runs ih =>
    intro acc fr
    rw [List.foldl_cons,
      show batchStep (acc, fr) r =
        ((acc ++ [(processFile fr r).1]), (processFile fr r).2) from rfl,
      ih, List.map_append, List.map_cons]
    simp [processFile_kinds]

theorem batch_process_kinds (runs : List FileRun) :
    (batch_process runs).map (List.map kindOf) = runs.map fileKinds := by
  have h := batch_foldl_kinds runs [] true
  simpa [batch_process] using h

/-- C7 counterexample: a single-file batch whose metadata-persistence
step raises after the token file was already written.  The failing file
does not produce zero artifacts of its own: its token file remains. -/
theorem C7_cex_partial_artifacts :
    batch_process [⟨true, true, false, true⟩] = [[Artifact.tokenFile]] ∧
    [[Artifact.tokenFile]] ≠ ([[]] : List (List Artifact)) := by
  constructor
  · rfl
  · simp

/-- C7 (amended): every discovered file is processed (the batch never
aborts and yields one artifact list per input, each determined by that
file's own run alone); a file whose encoding raises produces zero
artifacts; a file whose persistence raises retains exactly the
artifacts written before the failing step; and a fully successful file
— anywhere in the batch, also after failures — produces its token
file, metadata file and aggregate row. -/
theorem claim_C7_error_isolation (runs : List FileRun) :
    (batch_process runs).length = runs.length ∧
    (batch_process runs).map (List.map kindOf) = runs.map fileKinds ∧
    (∀ (i : ℕ) (r : FileRun), runs[i]? = some r → r.encodeOk = false →
      (batch_process runs)[i]? = some []) ∧
    (∀ (i : ℕ) (r : FileRun), runs[i]? = some r → r.encodeOk = true →
      r.saveTokensOk = true → r.saveMetaOk = true → r.appendRowOk = true →
      ∃ arts : List Artifact, (batch_process runs)[i]? = some arts ∧
        arts.map kindOf = [AKind.tokenA, AKind.metaA, AKind.rowA]) := by
  have hk := batch_process_kinds runs
  have hlen : (batch_process runs).length = runs.length := by
    have := congrArg List.length hk
    simpa using this
  refine ⟨hlen, hk, ?_, ?_⟩
  · intro i r hi he
    have hmap : ((batch_process runs)[i]?).map (List.map kindOf) =
        (runs[i]?).map fileKinds := by
      rw [← List.getElem?_map, ← List.getElem?_map, hk]
    rw [hi] at hmap
    rcases hx : (batch_process runs)[i]? with _ | arts
    · rw [hx] at hmap
      simp at hmap
    · rw [hx] at hmap
      simp [fileKinds, he] at hmap
      rw [hmap]
  · intro i r hi he ht hm ha
    have hmap : ((batch_process runs)[i]?).map (List.map kindOf) =
        (runs[i]?).map fileKinds := by
      rw [← List.getElem?_map, ← List.getElem?_map, hk]
    rw [hi] at hmap
    rcases hx : (batch_process runs)[i]? with _ | arts
    · rw [hx] at hmap
      simp at hmap
    · rw [hx] at hmap
      simp only [Option.map_some', Option.some.injEq] at hmap
      refine ⟨arts, rfl, ?_⟩
      rw [hmap]
      simp [fileKinds, he, ht, hm, ha]

end TransmuseTATE

namespace TransmuseTATE

/-! ## Vocabulary Builder -/

/-- The special tokens configured for the trainer in
`tokenise_remi.py` lines 25–28, in their declared order. -/
def SPECIAL_TOKENS : List String := ["[PAD]", "[CLS]", "[SEP]", "[MASK]", "[UNK]"]

/-- Occurrences of token `t` in the corpus. -/
def countTok (corpus : List String) (t : String) : ℕ :=
  (corpus.filter (fun x => x == t)).length

/-- First occurrences, in first-seen order, of tokens not already in
`seen`. -/
def dedupFS (seen : List String) : List String → List String
  | [] => []
  | x :: xs => if x ∈ seen then dedupFS seen xs else x :: dedupFS (x :: seen) xs

/-- Stable insertion for a descending-count order: the new element goes
in front of the first entry with a strictly smaller count. -/
def insertByCount (cnt : String → ℕ) (a : String) : List String → List String
  | [] => [a]
  | b :: l => if cnt b ≤ cnt a then a :: b :: l else b :: insertByCount cnt a l

/-- Stable sort by descending count (insertion sort; ties keep
first-seen order). -/
def sortByCountDesc (cnt : String → ℕ) : List String → List String
  | [] => []
  | a :: l => insertByCount cnt a (sortByCountDesc cnt l)

/-- Modelled from the spec: the word-level vocabulary trainer
(`tokenizers.trainers.WordLevelTrainer`, an external collaborator whose
code is not in this repository).  Per §4.5: the fixed ordered special
tokens take the lowest ids, then corpus tokens in descending frequency
(ties broken by first-seen order), truncated to the size budget; a
token's id is its position in this list. -/
def buildVocab (vocabSize : ℕ) (specials : List String) (corpus : List String) :
    List String :=
  specials ++
    (sortByCountDesc (countTok corpus) (dedupFS specials corpus)).take
      (vocabSize - specials.length)

/-- Modelled from the spec: closed-vocabulary use — a token outside the
learned vocabulary maps to the reserved `[UNK]` id. -/
def tokenId (vocab : List String) (t : String) : ℕ :=
  if t ∈ vocab then vocab.indexOf t else vocab.indexOf "[UNK]"

theorem mem_insertByCount (cnt : String → ℕ) (a x : String) (l : List String) :
    x ∈ insertByCount cnt a l ↔ x = a ∨ x ∈ l := by
  induction l with
  | nil => simp [insertByCount]
  | cons b l ih =>
    rw [insertByCount]
    split
    · simp
    · simp only [List.mem_cons, ih]
      tauto

theorem mem_sortByCountDesc (cnt : String → ℕ) (x : String) (l : List String) :
    x ∈ sortByCountDesc cnt l ↔ x ∈ l := by
  induction l with
  | nil => simp [sortByCountDesc]
  | cons a l ih =>
    rw [sortByCountDesc, mem_insertByCount]
    simp [ih]

theorem pairwise_insertByCount (cnt : String → ℕ) (a : String) (l : List String)
    (h : l.Pairwise (fun x y => cnt y ≤ cnt x)) :
    (insertByCount cnt a l).Pairwise (fun x y => cnt y ≤ cnt x) := by
  induction l with
  | nil => simp [insertByCount]
  | cons b l ih =>
    rw [insertByCount]
    rcases List.pairwise_cons.mp h with ⟨hb, hl⟩
    split
    · rename_i hle
      refine List.pairwise_cons.mpr ⟨?_, h⟩
      intro y hy
      rcases List.mem_cons.mp hy with rfl | hyl
      · exact hle
      · exact le_trans (hb y hyl) hle
    · rename_i hgt
      refine List.pairwise_cons.mpr ⟨?_, ih hl⟩
      intro y hy
      rcases (mem_insertByCount cnt a y l).mp hy with rfl | hyl
      · exact le_of_lt (lt_of_not_le hgt)
      · exact hb y hyl

theorem pairwise_sortByCountDesc (cnt : String → ℕ) (l : List String) :
    (sortByCountDesc cnt l).Pairwise (fun x y => cnt y ≤ cnt x) := by
  induction l with
  | nil => simp [sortByCountDesc]
  | cons a l ih => exact pairwise_insertByCount cnt a _ ih

/-- In a descending-sorted list, anything strictly more frequent than a
member of the first `k` entries is itself among the first `k`. -/
theorem mem_take_of_count_lt (cnt : String → ℕ) :
    ∀ (l : List String) (k : ℕ) (t u : String),
    l.Pairwise (fun x y => cnt y ≤ cnt x) →
    u ∈ l.take k → t ∈ l → cnt u < cnt t → t ∈ l.take k := by
  intro l
  induction l with
  | nil =>
    intro k t u _ hu
    simp at hu
  | cons x l ih =>
    intro k t u hp hu ht hlt
    cases k with
    | zero => simp at hu
    | succ k =>
      rw [List.take_succ_cons] at hu ⊢
      rcases List.mem_cons.mp ht with rfl | htl
      · exact List.mem_cons_self _ _
      rcases List.mem_cons.mp hu with rfl | hul
      · have := (List.pairwise_cons.mp hp).1 t htl
        omega
      · exact List.mem_cons_of_mem _
          (ih k t u (List.pairwise_cons.mp hp).2 hul htl hlt)

theorem buildVocab_indexOf_UNK (corpus : List String) :
    (buildVocab 512 SPECIAL_TOKENS corpus).indexOf "[UNK]" = 4 := by
  rw [buildVocab, List.indexOf_append_of_mem (by simp [SPECIAL_TOKENS])]
  rfl

/-- C9 (spec-modelled trainer): with size budget 512 and the five
special tokens of the source configuration, the builder assigns ids
0–4 to `[PAD]`, `[CLS]`, `[SEP]`, `[MASK]`, `[UNK]` in that declared
order, yields at most 512 ids in total, retains any corpus token
strictly more frequent than a retained one (so a rarer token is never
kept at the expense of a more frequent one), and maps every token
outside the vocabulary to the `[UNK]` id at use time. -/
theorem claim_C9_vocabulary_builder (corpus : List String) :
    (buildVocab 512 SPECIAL_TOKENS corpus).take 5 = SPECIAL_TOKENS ∧
    tokenId (buildVocab 512 SPECIAL_TOKENS corpus) "[PAD]" = 0 ∧
    tokenId (buildVocab 512 SPECIAL_TOKENS corpus) "[CLS]" = 1 ∧
    tokenId (buildVocab 512 SPECIAL_TOKENS corpus) "[SEP]" = 2 ∧
    tokenId (buildVocab 512 SPECIAL_TOKENS corpus) "[MASK]" = 3 ∧
    tokenId (buildVocab 512 SPECIAL_TOKENS corpus) "[UNK]" = 4 ∧
    (buildVocab 512 SPECIAL_TOKENS corpus).length ≤ 512 ∧
    (∀ t u : String, t ∈ dedupFS SPECIAL_TOKENS corpus → u ∉ SPECIAL_TOKENS →
      countTok corpus u < countTok corpus t →
      u ∈ buildVocab 512 SPECIAL_TOKENS corpus →
      t ∈ buildVocab 512 SPECIAL_TOKENS corpus) ∧
    (∀ u : String, u ∉ buildVocab 512 SPECIAL_TOKENS corpus →
      tokenId (buildVocab 512 SPECIAL_TOKENS corpus) u = 4) := by
  have hspec : ∀ s ∈ SPECIAL_TOKENS, s ∈ buildVocab 512 SPECIAL_TOKENS corpus := by
    intro s hs
    exact List.mem_append_left _ hs
  refine ⟨?_, ?_, ?_, ?_, ?_, ?_, ?_, ?_, ?_⟩
  · rw [buildVocab, show (5 : ℕ) = SPECIAL_TOKENS.length from rfl, List.take_left]
  · rw [tokenId, if_pos (hspec _ (by simp [SPECIAL_TOKENS])), buildVocab,
      List.indexOf_append_of_mem (by simp [SPECIAL_TOKENS])]
    rfl
  · rw [tokenId, if_pos (hspec _ (by simp [SPECIAL_TOKENS])), buildVocab,
      List.indexOf_append_of_mem (by simp [SPECIAL_TOKENS])]
    rfl
  · rw [tokenId, if_pos (hspec _ (by simp [SPECIAL_TOKENS])), buildVocab,
      List.indexOf_append_of_mem (by simp [SPECIAL_TOKENS])]
    rfl
  · rw [tokenId, if_pos (hspec _ (by simp [SPECIAL_TOKENS])), buildVocab,
      List.indexOf_append_of_mem (by simp [SPECIAL_TOKENS])]
    rfl
  · rw [tokenId, if_pos (hspec _ (by simp [SPECIAL_TOKENS]))]
    exact buildVocab_indexOf_UNK corpus
  · rw [buildVocab, List.length_append]
    have h := List.length_take (512 - SPECIAL_TOKENS.length)
      (sortByCountDesc (countTok corpus) (dedupFS SPECIAL_TOKENS corpus))
    rw [show SPECIAL_TOKENS.length = 5 from rfl] at h ⊢
    omega
  · intro t u ht hu hlt humem
    have hu' : u ∈ (sortByCountDesc (countTok corpus) (dedupFS SPECIAL_TOKENS corpus)).take
        (512 - SPECIAL_TOKENS.length) := by
      rcases List.mem_append.mp humem with h | h
      · exact absurd h hu
      · exact h
    have ht' : t ∈ sortByCountDesc (countTok corpus) (dedupFS SPECIAL_TOKENS corpus) :=
      (mem_sortByCountDesc _ t _).mpr ht
    refine List.mem_append_right _ ?_
    exact mem_take_of_count_lt (countTok corpus) _ _ t u
      (pairwise_sortByCountDesc _ _) hu' ht' hlt
  · intro u hu
    rw [tokenId, if_neg hu]
    exact buildVocab_indexOf_UNK corpus

end TransmuseTATE

namespace TransmuseTATE

/-- C7 witness: the spec's three-file scenario — the middle file's
encoding raises — instantiated through the amended theorem: the middle
file yields no artifacts and the third still yields all three. -/
theorem claim_C7_witness :
    (batch_process [⟨true, true, true, true⟩, ⟨false, true, true, true⟩,
      ⟨true, true, true, true⟩])[1]? = some [] ∧
    ∃ arts : List Artifact,
      (batch_process [⟨true, true, true, true⟩, ⟨false, true, true, true⟩,
        ⟨true, true, true, true⟩])[2]? = some arts ∧
      arts.map kindOf = [AKind.tokenA, AKind.metaA, AKind.rowA] :=
  ⟨(claim_C7_error_isolation
      [⟨true, true, true, true⟩, ⟨false, true, true, true⟩, ⟨true, true, true, true⟩]).2.2.1
      1 ⟨false, true, true, true⟩ rfl rfl,
   (claim_C7_error_isolation
      [⟨true, true, true, true⟩, ⟨false, true, true, true⟩, ⟨true, true, true, true⟩]).2.2.2
      2 ⟨true, true, true, true⟩ rfl rfl rfl rfl rfl⟩

/-- C9 witness: on the corpus `A A B`, the more frequent token `A` is
retained given that `B` is, and the out-of-vocabulary token `Z` maps to
the `[UNK]` id 4. -/
theorem claim_C9_witness :
    "A" ∈ buildVocab 512 SPECIAL_TOKENS ["A", "A", "B"] ∧
    tokenId (buildVocab 512 SPECIAL_TOKENS ["A", "A", "B"]) "Z" = 4 :=
  ⟨(claim_C9_vocabulary_builder ["A", "A", "B"]).2.2.2.2.2.2.2.1 "A" "B"
      (by decide) (by decide) (by decide) (by decide),
   (claim_C9_vocabulary_builder ["A", "A", "B"]).2.2.2.2.2.2.2.2 "Z" (by decide)⟩

/-- C10 witness: the first surviving character of the stripped
`../meta.json` is `m`, which is neither `.` nor `/`. -/
theorem claim_C10_witness : ¬('m' = '.' ∨ 'm' = '/') :=
  (claim_C10_lstrip_resolution.1 ("../meta.json".data)).2.2 'm' (by decide)

end TransmuseTATE
